import Mathlib

/-
A shallow embedding of the persistent collections in plist-rs:
`src/list.rs` (List), `src/map.rs` (Map), and the three layered-map
variants `src/hammer_map.rs` (HammerMap), `src/flail_map.rs` (FlailMap)
and `src/chain_map.rs` (ChainMap), together with theorems settling the
specification claims about them.

Modelling conventions:
- An `Option<Rc<Cons<T>>>` cons chain is modelled as a Lean `List`:
  `None` is `[]` and a `Cons \x7b head, tail \x7d` cell is `x :: xs`.
  Reference-counted sharing collapses to plain values.
- `std::collections::HashMap` (the layered maps' head table) is modelled
  as a list of pairs; a real `HashMap` has pairwise-distinct keys and an
  unspecified iteration order, so theorems that depend on key uniqueness
  take it as a hypothesis.
- `std::collections::HashSet` (the seen-key sets of the deduplicating
  iterators and of `len`) is modelled as a list of keys with membership
  testing, inserting only when absent.
- A Rust panic (`Option::expect` in the `Index` impls) is modelled by
  `Option`: `none` is the panic.
-/

set_option autoImplicit false

namespace Plist

variable {α : Type} {K V : Type}

/-- Model of the struct `List<T>` of src/list.rs: a shared cons chain
(field `cons`, modelling `Option<Rc<Cons<T>>>`) plus a cached element
count (field `size`). -/
structure RList (α : Type) where
  cons : List α
  size : Nat
deriving DecidableEq

namespace RList

/-- Model of the fn `List::new`. -/
def new : RList α := ⟨[], 0⟩

/-- Model of the fn `List::len`: returns the cached count. -/
def len (l : RList α) : Nat := l.size

/-- Model of the fn `List::is_empty`: compares the cached count with 0. -/
def is_empty (l : RList α) : Bool := l.size == 0

/-- Model of the fn `List::push_front`: one new cons cell whose tail is
the old chain, cached count incremented. -/
def push_front (l : RList α) (head : α) : RList α :=
  ⟨head :: l.cons, l.size + 1⟩

/-- Model of the fn `List::push_front_many`: fold `push_front` over the
items in iteration order. -/
def push_front_many (l : RList α) (iterator : List α) : RList α :=
  iterator.foldl push_front l

/-- Model of the fn `List::pop_front`: share the tail and decrement the
cached count when the chain is nonempty, otherwise return `new()`. -/
def pop_front (l : RList α) : RList α :=
  match l.cons with
  | _ :: tail => ⟨tail, l.size - 1⟩
  | [] => new

/-- Model of the fn `List::contains`: scan the iteration for an equal
element. -/
def contains [DecidableEq α] (l : RList α) (value : α) : Bool :=
  l.cons.any (fun other => other = value)

/-- Model of the impl `Clone for List`: clone the chain reference and
copy the cached count. -/
def clone (l : RList α) : RList α := ⟨l.cons, l.size⟩

/-- Model of the impl `FromIterator for List`: fold `push_front` over the
items starting from `new()`. -/
def from_iter (iterator : List α) : RList α := iterator.foldl push_front new

/-- Model of `ListIterator`: yields the chain elements front-to-back. -/
def toList (l : RList α) : List α := l.cons

end RList

/-- Model of the fn `HashMap::get` on the pairs-list model of a hash
table: the value of the first pair whose key matches (on a real
`HashMap` keys are pairwise distinct, so first-match agrees with it). -/
def hmGet [DecidableEq K] (xs : List (K × V)) (k : K) : Option V :=
  xs.findSome? (fun p => if p.1 = k then some p.2 else none)

/-- The seen-set skeleton shared by `MapIterator::next` of src/map.rs and
the head stages of `HammerMapIterator`/`FlailMapIterator`: walk the pairs
in order; a pair whose key is in the seen set is skipped, otherwise the
key is added to the set and the pair is yielded. -/
def dedupPairs [DecidableEq K] : List (K × V) → List K → List (K × V)
  | [], _ => []
  | (k, v) :: rest, seen =>
    if k ∈ seen then dedupPairs rest seen
    else (k, v) :: dedupPairs rest (k :: seen)

/-- Model of the fn `HashSet::insert` on the list model of a set: add the
key when absent. -/
def hsInsert [DecidableEq K] (s : List K) (k : K) : List K :=
  if k ∈ s then s else k :: s

/-- Model of the tuple struct `Map<K, V>(List<(K, V)>)` of src/map.rs. -/
structure RMap (K V : Type) where
  entries : RList (K × V)
deriving DecidableEq

namespace RMap

/-- Model of the fn `Map::new`. -/
def new : RMap K V := ⟨RList.new⟩

/-- Model of the fn `Map::get`: `find_map` over the list iteration, so
the first (frontmost) pair with a matching key wins. -/
def get [DecidableEq K] (m : RMap K V) (key : K) : Option V :=
  m.entries.toList.findSome? (fun p => if p.1 = key then some p.2 else none)

/-- Model of the fn `Map::insert`: prepend the pair to the list. -/
def insert (m : RMap K V) (key : K) (value : V) : RMap K V :=
  ⟨m.entries.push_front (key, value)⟩

/-- Model of the fn `Map::insert_many`: `push_front_many` of the pairs. -/
def insert_many (m : RMap K V) (pairs : List (K × V)) : RMap K V :=
  ⟨m.entries.push_front_many pairs⟩

/-- Model of `MapIterator` (src/map.rs): the underlying list iteration
filtered through the seen-key set. -/
def toList [DecidableEq K] (m : RMap K V) : List (K × V) :=
  dedupPairs m.entries.toList []

/-- Model of the fn `Map::keys`: first components of the deduplicated
iteration. -/
def keys [DecidableEq K] (m : RMap K V) : List K :=
  m.toList.map Prod.fst

/-- Model of the fn `Map::values`: second components of the deduplicated
iteration. -/
def values [DecidableEq K] (m : RMap K V) : List V :=
  m.toList.map Prod.snd

/-- Model of the fn `Map::len`: insert every key yielded by `keys()` into
a fresh set and return the set's size. -/
def len [DecidableEq K] (m : RMap K V) : Nat :=
  (m.keys.foldl hsInsert []).length

/-- Model of the fn `Map::is_empty`: emptiness of the underlying list. -/
def is_empty (m : RMap K V) : Bool := m.entries.is_empty

/-- Model of the fn `Map::contains_key`: scan `keys()` for a match. -/
def contains_key [DecidableEq K] (m : RMap K V) (key : K) : Bool :=
  m.keys.any (fun other => other = key)

/-- Model of the impl `Index for Map`: `get(key).expect("existent key")`;
`none` models the panic on an absent key. -/
def index [DecidableEq K] (m : RMap K V) (key : K) : Option V :=
  m.get key

/-- Model of the impl `PartialEq for Map`: collect self's deduplicated
iteration into a table, then check that every pair of other's
deduplicated iteration is present in it with an equal value. -/
def beq [DecidableEq K] [DecidableEq V] (a b : RMap K V) : Bool :=
  b.toList.all (fun p =>
    match hmGet a.toList p.1 with
    | some v => v = p.2
    | none => false)

/-- Model of the impl `FromIterator for Map`: `new()` then `insert_many`. -/
def from_iter [DecidableEq K] (pairs : List (K × V)) : RMap K V :=
  new.insert_many pairs

end RMap

/-- The derived `Debug` rendering of an `Option<Rc<Cons<T>>>` chain
(src/list.rs derives `Debug` for `Cons`): `None`, or
`Some(Cons \x7b head: .., tail: .. \x7d)` nested along the chain. -/
def consDebug (fmt : α → String) : List α → String
  | [] => "None"
  | x :: tail =>
    "Some(Cons \x7b head: " ++ fmt x ++ ", tail: " ++ consDebug fmt tail ++ " \x7d)"

/-- The derived `Debug` rendering of `List<T>` (src/list.rs derives
`Debug` for the struct). -/
def rlistDebug (fmt : α → String) (l : RList α) : String :=
  "List \x7b cons: " ++ consDebug fmt l.cons ++ ", size: " ++ toString l.size ++ " \x7d"

/-- The derived `Debug` rendering of `Map<K, V>` (src/map.rs line 9
derives `Debug` for the tuple struct): `Map(..)` around the list's
rendering, with pairs rendered `(k, v)`. -/
def mapDebug (fk : K → String) (fv : V → String) (m : RMap K V) : String :=
  "Map(" ++ rlistDebug (fun p => "(" ++ fk p.1 ++ ", " ++ fv p.2 ++ ")") m.entries ++ ")"

/-- The loop of the handwritten layered-map `Debug` impls: render each
yielded pair as `k: v`, appending `", "` after entries whose index is
below `len() - 1`. -/
def fmtEntries (fmtPair : K × V → String) (n : Nat) : Nat → List (K × V) → String
  | _, [] => ""
  | i, p :: rest =>
    fmtPair p ++ (if i < n - 1 then ", " else "") ++ fmtEntries fmtPair n (i + 1) rest

/-- Model of the struct `HammerMap<K, V>` of src/hammer_map.rs: an
overlay `chain : Map<K, V>` over a shared head table
`head : Rc<HashMap<K, V>>`. -/
structure RHammerMap (K V : Type) where
  chain : RMap K V
  head : List (K × V)
deriving DecidableEq

namespace RHammerMap

/-- Model of the fn `HammerMap::new`: empty chain over the given head. -/
def new (head : List (K × V)) : RHammerMap K V := ⟨RMap.new, head⟩

/-- Model of the fn `HammerMap::insert`: insert into the chain, clone the
head reference. -/
def insert (m : RHammerMap K V) (key : K) (value : V) : RHammerMap K V :=
  ⟨m.chain.insert key value, m.head⟩

/-- Model of the fn `HammerMap::insert_many`: `insert_many` on the chain,
clone the head reference. -/
def insert_many (m : RHammerMap K V) (pairs : List (K × V)) : RHammerMap K V :=
  ⟨m.chain.insert_many pairs, m.head⟩

/-- Model of the fn `HammerMap::get`: chain first, `or_else` the head. -/
def get [DecidableEq K] (m : RHammerMap K V) (key : K) : Option V :=
  (m.chain.get key).orElse (fun _ => hmGet m.head key)

/-- Model of `HammerMapIterator` (src/hammer_map.rs lines 166-190): the
chain iterator (itself deduplicating, with its own seen set) is exhausted
first, then the head iterator; every yielded key is checked against and
added to the iterator's own seen set. Running the outer seen set over the
concatenation of the chain iterator's output and the head entries is
exactly that state machine. -/
def toList [DecidableEq K] (m : RHammerMap K V) : List (K × V) :=
  dedupPairs (m.chain.toList ++ m.head) []

/-- Model of the fn `HammerMap::keys`. -/
def keys [DecidableEq K] (m : RHammerMap K V) : List K :=
  m.toList.map Prod.fst

/-- Model of the fn `HammerMap::values`. -/
def values [DecidableEq K] (m : RHammerMap K V) : List V :=
  m.toList.map Prod.snd

/-- Model of the fn `HammerMap::len`: insert every key of `keys()` into a
fresh set and return the set's size. -/
def len [DecidableEq K] (m : RHammerMap K V) : Nat :=
  (m.keys.foldl hsInsert []).length

/-- Model of the fn `HammerMap::is_empty`: both layers empty. -/
def is_empty (m : RHammerMap K V) : Bool :=
  m.chain.is_empty && m.head.isEmpty

/-- Model of the fn `HammerMap::contains_key`: scan `keys()`. -/
def contains_key [DecidableEq K] (m : RHammerMap K V) (key : K) : Bool :=
  m.keys.any (fun other => other = key)

/-- Model of the impl `Index for HammerMap`: `get(key).expect(..)`;
`none` models the panic. -/
def index [DecidableEq K] (m : RHammerMap K V) (key : K) : Option V :=
  m.get key

/-- Model of the impl `PartialEq for HammerMap`: same one-directional
check as `Map`'s, over the layered iteration. -/
def beq [DecidableEq K] [DecidableEq V] (a b : RHammerMap K V) : Bool :=
  b.toList.all (fun p =>
    match hmGet a.toList p.1 with
    | some v => v = p.2
    | none => false)

/-- Model of the impl `Debug for HammerMap` (src/hammer_map.rs lines
103-119): braces around the iteration's pairs rendered `k: v`, a comma
separator after indices below `len() - 1`. -/
def debug [DecidableEq K] (fk : K → String) (fv : V → String)
    (m : RHammerMap K V) : String :=
  "\x7b" ++ fmtEntries (fun p => fk p.1 ++ ": " ++ fv p.2) m.len 0 m.toList ++ "\x7d"

end RHammerMap

/-- Model of the struct `FlailMap<K, V>` of src/flail_map.rs (its fields
and impls are token-identical to `HammerMap`'s apart from trait bounds on
`get`/`Index`, which have no behavioral content). -/
structure RFlailMap (K V : Type) where
  chain : RMap K V
  head : List (K × V)
deriving DecidableEq

namespace RFlailMap

/-- Model of the fn `FlailMap::new`. -/
def new (head : List (K × V)) : RFlailMap K V := ⟨RMap.new, head⟩

/-- Model of the fn `FlailMap::insert`. -/
def insert (m : RFlailMap K V) (key : K) (value : V) : RFlailMap K V :=
  ⟨m.chain.insert key value, m.head⟩

/-- Model of the fn `FlailMap::insert_many`. -/
def insert_many (m : RFlailMap K V) (pairs : List (K × V)) : RFlailMap K V :=
  ⟨m.chain.insert_many pairs, m.head⟩

/-- Model of the fn `FlailMap::get`: chain first, `or_else` the head. -/
def get [DecidableEq K] (m : RFlailMap K V) (key : K) : Option V :=
  (m.chain.get key).orElse (fun _ => hmGet m.head key)

/-- Model of `FlailMapIterator` (src/flail_map.rs lines 166-190), the
same two-stage deduplicating machine as `HammerMapIterator`. -/
def toList [DecidableEq K] (m : RFlailMap K V) : List (K × V) :=
  dedupPairs (m.chain.toList ++ m.head) []

/-- Model of the fn `FlailMap::keys`. -/
def keys [DecidableEq K] (m : RFlailMap K V) : List K :=
  m.toList.map Prod.fst

/-- Model of the fn `FlailMap::len`. -/
def len [DecidableEq K] (m : RFlailMap K V) : Nat :=
  (m.keys.foldl hsInsert []).length

/-- Model of the fn `FlailMap::is_empty`. -/
def is_empty (m : RFlailMap K V) : Bool :=
  m.chain.is_empty && m.head.isEmpty

/-- Model of the fn `FlailMap::contains_key`. -/
def contains_key [DecidableEq K] (m : RFlailMap K V) (key : K) : Bool :=
  m.keys.any (fun other => other = key)

/-- Model of the impl `PartialEq for FlailMap`. -/
def beq [DecidableEq K] [DecidableEq V] (a b : RFlailMap K V) : Bool :=
  b.toList.all (fun p =>
    match hmGet a.toList p.1 with
    | some v => v = p.2
    | none => false)

/-- Model of the impl `Debug for FlailMap`. -/
def debug [DecidableEq K] (fk : K → String) (fv : V → String)
    (m : RFlailMap K V) : String :=
  "\x7b" ++ fmtEntries (fun p => fk p.1 ++ ": " ++ fv p.2) m.len 0 m.toList ++ "\x7d"

end RFlailMap

/-- Model of the struct `ChainMap<K, V>` of src/chain_map.rs (the module
is not declared in src/lib.rs). -/
structure RChainMap (K V : Type) where
  chain : RMap K V
  head : List (K × V)
deriving DecidableEq

namespace RChainMap

/-- Model of the fn `ChainMap::new`. -/
def new (head : List (K × V)) : RChainMap K V := ⟨RMap.new, head⟩

/-- Model of the fn `ChainMap::insert`. -/
def insert (m : RChainMap K V) (key : K) (value : V) : RChainMap K V :=
  ⟨m.chain.insert key value, m.head⟩

/-- Model of the fn `ChainMap::get`: chain first, `or_else` the head. -/
def get [DecidableEq K] (m : RChainMap K V) (key : K) : Option V :=
  (m.chain.get key).orElse (fun _ => hmGet m.head key)

/-- Model of `ChainMapIterator` (src/chain_map.rs lines 166-182). The
written `next` reads `self.iterator` — a field the struct does not
declare; the only declared field whose items have the right type is
`chain_iterator` — and its body has no branch consuming `head_iterator`.
Modelled as the outer seen set run over the chain iterator's output
alone: head entries are never yielded. -/
def toList [DecidableEq K] (m : RChainMap K V) : List (K × V) :=
  dedupPairs m.chain.toList []

/-- Model of the fn `ChainMap::keys`. -/
def keys [DecidableEq K] (m : RChainMap K V) : List K :=
  m.toList.map Prod.fst

/-- Model of the fn `ChainMap::len`: insert every key of `keys()` into a
fresh set and return the set's size. -/
def len [DecidableEq K] (m : RChainMap K V) : Nat :=
  (m.keys.foldl hsInsert []).length

/-- Model of the fn `ChainMap::contains_key`. -/
def contains_key [DecidableEq K] (m : RChainMap K V) (key : K) : Bool :=
  m.keys.any (fun other => other = key)

end RChainMap

end Plist

namespace Plist

variable {α : Type} {K V : Type}

/-- Rendering described by the spec for claim C3: a comma-separated
listing of already-rendered entries (used to compare the handwritten
`Debug` loop against the spec's wording). -/
def sepByComma : List String → String
  | [] => ""
  | [s] => s
  | s :: rest => s ++ ", " ++ sepByComma rest

/-- The cached-size invariant of claim C10: the stored `size` field
equals the number of cons cells in the chain. -/
def SizeInv (l : RList α) : Prop := l.size = l.cons.length

theorem hmGet_nil (k : K) [DecidableEq K] : hmGet ([] : List (K × V)) k = none := rfl

theorem hmGet_cons [DecidableEq K] (p : K × V) (xs : List (K × V)) (k : K) :
    hmGet (p :: xs) k = if p.1 = k then some p.2 else hmGet xs k := by
  unfold hmGet
  rw [List.findSome?_cons]
  by_cases h : p.1 = k <;> simp [h]

theorem hmGet_eq_none_iff [DecidableEq K] (xs : List (K × V)) (k : K) :
    hmGet xs k = none ↔ ∀ p ∈ xs, p.1 ≠ k := by
  induction xs with
  | nil => simp [hmGet_nil]
  | cons p rest ih =>
    rw [hmGet_cons]
    by_cases h : p.1 = k <;> simp [h, ih]

theorem hmGet_mem_fst_iff [DecidableEq K] (xs : List (K × V)) (k : K) :
    (∃ v, hmGet xs k = some v) ↔ k ∈ xs.map Prod.fst := by
  induction xs with
  | nil => simp [hmGet_nil]
  | cons p rest ih =>
    rw [hmGet_cons, List.map_cons, List.mem_cons]
    by_cases h : p.1 = k
    · simp [h]
    · simp [h, ih, Ne.symm h]

theorem hmGet_append [DecidableEq K] (xs ys : List (K × V)) (k : K) :
    hmGet (xs ++ ys) k = (hmGet xs k).orElse (fun _ => hmGet ys k) := by
  induction xs with
  | nil => rfl
  | cons p rest ih =>
    rw [List.cons_append, hmGet_cons, hmGet_cons]
    by_cases h : p.1 = k <;> simp [h, ih, Option.orElse]

theorem mem_dedupPairs [DecidableEq K] (xs : List (K × V)) (seen : List K)
    (k : K) (v : V) :
    (k, v) ∈ dedupPairs xs seen ↔ k ∉ seen ∧ hmGet xs k = some v := by
  induction xs generalizing seen with
  | nil => simp [dedupPairs, hmGet_nil]
  | cons p rest ih =>
    obtain ⟨k', v'⟩ := p
    have hd : dedupPairs ((k', v') :: rest) seen =
        if k' ∈ seen then dedupPairs rest seen
        else (k', v') :: dedupPairs rest (k' :: seen) := rfl
    have hg : hmGet ((k', v') :: rest) k = if k' = k then some v' else hmGet rest k :=
      hmGet_cons (k', v') rest k
    rw [hd, hg]
    by_cases he : k' = k
    · subst he
      by_cases hs : k' ∈ seen
      · rw [if_pos hs, if_pos rfl, ih]
        simp [hs]
      · rw [if_neg hs, if_pos rfl, List.mem_cons, ih]
        constructor
        · rintro (hpair | ⟨hns, _⟩)
          · exact ⟨hs, congrArg some (congrArg Prod.snd hpair).symm⟩
          · exact absurd (List.mem_cons_self k' seen) hns
        · rintro ⟨_, hv⟩
          exact Or.inl (by cases Option.some.inj hv; rfl)
    · by_cases hs : k' ∈ seen
      · rw [if_pos hs, if_neg he, ih]
      · rw [if_neg hs, if_neg he, List.mem_cons, ih]
        constructor
        · rintro (hpair | ⟨hns, hv⟩)
          · exact absurd (congrArg Prod.fst hpair).symm he
          · exact ⟨fun hk => hns (List.mem_cons.mpr (Or.inr hk)), hv⟩
        · rintro ⟨hns, hv⟩
          refine Or.inr ⟨fun hk => ?_, hv⟩
          rcases List.mem_cons.mp hk with heq | hk2
          · exact he heq.symm
          · exact hns hk2

theorem mem_fst_dedupPairs [DecidableEq K] (xs : List (K × V)) (seen : List K)
    (k : K) :
    k ∈ (dedupPairs xs seen).map Prod.fst ↔ k ∉ seen ∧ k ∈ xs.map Prod.fst := by
  constructor
  · intro h
    obtain ⟨p, hmem, hk⟩ := List.mem_map.mp h
    obtain ⟨hns, hget⟩ := (mem_dedupPairs xs seen p.1 p.2).mp (by rwa [Prod.mk.eta])
    rw [hk] at hns hget
    exact ⟨hns, (hmGet_mem_fst_iff xs k).mp ⟨p.2, hget⟩⟩
  · rintro ⟨hns, hmem⟩
    obtain ⟨v, hget⟩ := (hmGet_mem_fst_iff xs k).mpr hmem
    exact List.mem_map.mpr ⟨(k, v), (mem_dedupPairs xs seen k v).mpr ⟨hns, hget⟩, rfl⟩

theorem dedupPairs_sublist [DecidableEq K] (xs : List (K × V)) (seen : List K) :
    List.Sublist (dedupPairs xs seen) xs := by
  induction xs generalizing seen with
  | nil => exact List.Sublist.refl []
  | cons p rest ih =>
    obtain ⟨k, v⟩ := p
    have hd : dedupPairs ((k, v) :: rest) seen =
        if k ∈ seen then dedupPairs rest seen
        else (k, v) :: dedupPairs rest (k :: seen) := rfl
    rw [hd]
    by_cases hs : k ∈ seen
    · exact (if_pos hs) ▸ List.Sublist.cons _ (ih seen)
    · exact (if_neg hs) ▸ List.Sublist.cons₂ _ (ih (k :: seen))

theorem dedupPairs_keys_nodup [DecidableEq K] (xs : List (K × V)) (seen : List K) :
    ((dedupPairs xs seen).map Prod.fst).Nodup := by
  induction xs generalizing seen with
  | nil => simp [dedupPairs]
  | cons p rest ih =>
    obtain ⟨k, v⟩ := p
    have hd : dedupPairs ((k, v) :: rest) seen =
        if k ∈ seen then dedupPairs rest seen
        else (k, v) :: dedupPairs rest (k :: seen) := rfl
    rw [hd]
    by_cases hs : k ∈ seen
    · exact (if_pos hs) ▸ ih seen
    · rw [if_neg hs, List.map_cons, List.nodup_cons]
      refine ⟨fun hk => ?_, ih (k :: seen)⟩
      exact ((mem_fst_dedupPairs rest (k :: seen) k).mp hk).1 (List.mem_cons_self k seen)

theorem hmGet_dedupPairs [DecidableEq K] (xs : List (K × V)) (seen : List K)
    (k : K) :
    hmGet (dedupPairs xs seen) k = if k ∈ seen then none else hmGet xs k := by
  induction xs generalizing seen with
  | nil =>
    by_cases hk : k ∈ seen <;> simp [dedupPairs, hmGet_nil, hk]
  | cons p rest ih =>
    obtain ⟨k', v'⟩ := p
    have hd : dedupPairs ((k', v') :: rest) seen =
        if k' ∈ seen then dedupPairs rest seen
        else (k', v') :: dedupPairs rest (k' :: seen) := rfl
    have hg : hmGet ((k', v') :: rest) k = if k' = k then some v' else hmGet rest k :=
      hmGet_cons (k', v') rest k
    rw [hd, hg]
    by_cases hs : k' ∈ seen
    · rw [if_pos hs, ih]
      by_cases hk : k ∈ seen
      · rw [if_pos hk, if_pos hk]
      · have hne : ¬(k' = k) := fun he => hk (he ▸ hs)
        rw [if_neg hk, if_neg hk, if_neg hne]
    · rw [if_neg hs]
      have hg2 : hmGet ((k', v') :: dedupPairs rest (k' :: seen)) k =
          if k' = k then some v' else hmGet (dedupPairs rest (k' :: seen)) k :=
        hmGet_cons (k', v') _ k
      rw [hg2, ih]
      by_cases he : k' = k
      · subst he
        rw [if_pos rfl, if_neg hs, if_pos rfl]
      · have hmem : (k ∈ k' :: seen) ↔ k ∈ seen := by
          rw [List.mem_cons]
          exact or_iff_right (fun hkk => he hkk.symm)
        rw [if_neg he, if_neg he]
        by_cases hk : k ∈ seen
        · rw [if_pos (hmem.mpr hk), if_pos hk]
        · rw [if_neg (fun hm => hk (hmem.mp hm)), if_neg hk]

theorem dedupPairs_congr [DecidableEq K] (xs : List (K × V)) (s t : List K)
    (h : ∀ x, x ∈ s ↔ x ∈ t) : dedupPairs xs s = dedupPairs xs t := by
  induction xs generalizing s t with
  | nil => rfl
  | cons p rest ih =>
    obtain ⟨k, v⟩ := p
    have hds : dedupPairs ((k, v) :: rest) s =
        if k ∈ s then dedupPairs rest s
        else (k, v) :: dedupPairs rest (k :: s) := rfl
    have hdt : dedupPairs ((k, v) :: rest) t =
        if k ∈ t then dedupPairs rest t
        else (k, v) :: dedupPairs rest (k :: t) := rfl
    rw [hds, hdt]
    by_cases hk : k ∈ s
    · rw [if_pos hk, if_pos ((h k).mp hk)]
      exact ih s t h
    · rw [if_neg hk, if_neg (fun hm => hk ((h k).mpr hm))]
      rw [ih (k :: s) (k :: t)
        (fun x => by rw [List.mem_cons, List.mem_cons, h x])]

theorem dedupPairs_append [DecidableEq K] (A B : List (K × V)) (s : List K) :
    dedupPairs (A ++ B) s =
      dedupPairs A s ++ dedupPairs B ((dedupPairs A s).map Prod.fst ++ s) := by
  induction A generalizing s with
  | nil => simp [dedupPairs]
  | cons p rest ih =>
    obtain ⟨k, v⟩ := p
    have hd1 : dedupPairs (((k, v) :: rest) ++ B) s =
        if k ∈ s then dedupPairs (rest ++ B) s
        else (k, v) :: dedupPairs (rest ++ B) (k :: s) := rfl
    have hd2 : dedupPairs ((k, v) :: rest) s =
        if k ∈ s then dedupPairs rest s
        else (k, v) :: dedupPairs rest (k :: s) := rfl
    rw [hd1, hd2]
    by_cases hk : k ∈ s
    · rw [if_pos hk, if_pos hk, ih]
    · rw [if_neg hk, if_neg hk, ih (k :: s), List.cons_append]
      congr 1
      congr 1
      apply dedupPairs_congr
      intro x
      simp only [List.mem_append, List.mem_cons, List.map_cons]
      tauto

theorem dedupPairs_eq_self [DecidableEq K] (xs : List (K × V)) (seen : List K)
    (h1 : (xs.map Prod.fst).Nodup) (h2 : ∀ p ∈ xs, p.1 ∉ seen) :
    dedupPairs xs seen = xs := by
  induction xs generalizing seen with
  | nil => rfl
  | cons p rest ih =>
    obtain ⟨k, v⟩ := p
    have hd : dedupPairs ((k, v) :: rest) seen =
        if k ∈ seen then dedupPairs rest seen
        else (k, v) :: dedupPairs rest (k :: seen) := rfl
    have hnodup := List.nodup_cons.mp (show (k :: rest.map Prod.fst).Nodup from h1)
    rw [hd, if_neg (h2 (k, v) (List.mem_cons_self _ _))]
    congr 1
    apply ih _ hnodup.2
    intro q hq
    rw [List.mem_cons]
    rintro (hqk | hqs)
    · exact hnodup.1 (hqk ▸ List.mem_map.mpr ⟨q, hq, rfl⟩)
    · exact h2 q (List.mem_cons.mpr (Or.inr hq)) hqs

theorem dedupPairs_eq_filter [DecidableEq K] (xs : List (K × V)) (seen : List K)
    (h : (xs.map Prod.fst).Nodup) :
    dedupPairs xs seen = xs.filter (fun p => decide (p.1 ∉ seen)) := by
  induction xs generalizing seen with
  | nil => rfl
  | cons p rest ih =>
    obtain ⟨k, v⟩ := p
    have hnodup := List.nodup_cons.mp (show (k :: rest.map Prod.fst).Nodup from h)
    have hd : dedupPairs ((k, v) :: rest) seen =
        if k ∈ seen then dedupPairs rest seen
        else (k, v) :: dedupPairs rest (k :: seen) := rfl
    rw [hd]
    by_cases hk : k ∈ seen
    · rw [if_pos hk, List.filter_cons_of_neg (by simp [hk]), ih _ hnodup.2]
    · rw [if_neg hk, List.filter_cons_of_pos (by simp [hk]), ih (k :: seen) hnodup.2]
      congr 1
      apply List.filter_congr
      intro q hq
      have hqk : q.1 ≠ k := fun he => hnodup.1 (he ▸ List.mem_map.mpr ⟨q, hq, rfl⟩)
      simp [List.mem_cons, hqk]

theorem hsInsert_toFinset [DecidableEq K] (s : List K) (k : K) :
    (hsInsert s k).toFinset = insert k s.toFinset := by
  unfold hsInsert
  by_cases h : k ∈ s
  · rw [if_pos h]
    exact (Finset.insert_eq_self.mpr (List.mem_toFinset.mpr h)).symm
  · rw [if_neg h, List.toFinset_cons]

theorem hsInsert_nodup [DecidableEq K] (s : List K) (k : K) (h : s.Nodup) :
    (hsInsert s k).Nodup := by
  unfold hsInsert
  by_cases hk : k ∈ s
  · rwa [if_pos hk]
  · rw [if_neg hk]
    exact List.nodup_cons.mpr ⟨hk, h⟩

theorem hsFold_toFinset [DecidableEq K] (xs : List K) (s : List K) :
    (xs.foldl hsInsert s).toFinset = s.toFinset ∪ xs.toFinset := by
  induction xs generalizing s with
  | nil => simp
  | cons x rest ih =>
    rw [List.foldl_cons, ih, hsInsert_toFinset, List.toFinset_cons]
    ext y
    simp only [Finset.mem_union, Finset.mem_insert]
    tauto

theorem hsFold_nodup [DecidableEq K] (xs s : List K) (h : s.Nodup) :
    (xs.foldl hsInsert s).Nodup := by
  induction xs generalizing s with
  | nil => exact h
  | cons x rest ih => exact ih _ (hsInsert_nodup s x h)

theorem hsFold_card [DecidableEq K] (xs : List K) :
    (xs.foldl hsInsert []).length = xs.toFinset.card := by
  rw [← List.toFinset_card_of_nodup (hsFold_nodup xs [] List.nodup_nil),
    hsFold_toFinset]
  simp

theorem map_get_eq_hmGet [DecidableEq K] (m : RMap K V) (k : K) :
    m.get k = hmGet m.entries.toList k := rfl

theorem map_hmGet_toList [DecidableEq K] (m : RMap K V) (k : K) :
    hmGet m.toList k = m.get k := by
  unfold RMap.toList
  rw [hmGet_dedupPairs, map_get_eq_hmGet]
  simp

theorem map_mem_toList [DecidableEq K] (m : RMap K V) (k : K) (v : V) :
    (k, v) ∈ m.toList ↔ m.get k = some v := by
  unfold RMap.toList
  rw [mem_dedupPairs, map_get_eq_hmGet]
  simp

theorem map_contains_key_iff [DecidableEq K] (m : RMap K V) (k : K) :
    m.contains_key k = true ↔ ∃ v, m.get k = some v := by
  unfold RMap.contains_key RMap.keys
  rw [List.any_eq_true]
  constructor
  · rintro ⟨x, hx, hxk⟩
    have hxk' : x = k := of_decide_eq_true hxk
    subst hxk'
    have hmem := ((mem_fst_dedupPairs _ _ x).mp hx).2
    obtain ⟨v, hv⟩ := (hmGet_mem_fst_iff _ x).mpr hmem
    exact ⟨v, by rw [map_get_eq_hmGet]; exact hv⟩
  · rintro ⟨v, hv⟩
    rw [map_get_eq_hmGet] at hv
    have hmem := (hmGet_mem_fst_iff _ k).mp ⟨v, hv⟩
    refine ⟨k, ?_, by simp⟩
    exact (mem_fst_dedupPairs _ _ k).mpr ⟨by simp, hmem⟩

theorem map_contains_key_eq_isSome [DecidableEq K] (m : RMap K V) (k : K) :
    m.contains_key k = (m.get k).isSome := by
  rcases h : m.get k with _ | v
  · rcases hc : m.contains_key k with _ | _
    · rfl
    · obtain ⟨v, hv⟩ := (map_contains_key_iff m k).mp hc
      rw [h] at hv
      exact Option.noConfusion hv
  · rw [(map_contains_key_iff m k).mpr ⟨v, h⟩]
    rfl

theorem hammer_get_eq_hmGet [DecidableEq K] (m : RHammerMap K V) (k : K) :
    m.get k = hmGet (m.chain.toList ++ m.head) k := by
  rw [hmGet_append, map_hmGet_toList]
  rfl

theorem hammer_mem_toList [DecidableEq K] (m : RHammerMap K V) (k : K) (v : V) :
    (k, v) ∈ m.toList ↔ m.get k = some v := by
  unfold RHammerMap.toList
  rw [mem_dedupPairs, hammer_get_eq_hmGet]
  simp

theorem hammer_toList_split [DecidableEq K] (m : RHammerMap K V)
    (h : (m.head.map Prod.fst).Nodup) :
    m.toList = m.chain.toList ++ m.head.filter (fun p => !(m.chain.contains_key p.1)) := by
  unfold RHammerMap.toList
  have h1 : dedupPairs m.chain.toList [] = m.chain.toList :=
    dedupPairs_eq_self _ _ (dedupPairs_keys_nodup _ _) (by simp)
  rw [dedupPairs_append, h1]
  congr 1
  rw [dedupPairs_eq_filter _ _ h]
  apply List.filter_congr
  intro p hp
  by_cases hmem : p.1 ∈ m.chain.toList.map Prod.fst
  · have hc : m.chain.contains_key p.1 = true := by
      rw [map_contains_key_iff]
      have hmem2 : p.1 ∈ m.chain.entries.toList.map Prod.fst :=
        ((mem_fst_dedupPairs m.chain.entries.toList [] p.1).mp hmem).2
      obtain ⟨v, hv⟩ := (hmGet_mem_fst_iff _ _).mpr hmem2
      exact ⟨v, by rw [map_get_eq_hmGet]; exact hv⟩
    simp [hmem, hc]
  · have hc : ¬(m.chain.contains_key p.1 = true) := by
      rw [map_contains_key_iff]
      rintro ⟨v, hv⟩
      rw [← map_hmGet_toList] at hv
      exact hmem ((hmGet_mem_fst_iff _ _).mp ⟨v, hv⟩)
    simp only [Bool.not_eq_true] at hc
    simp [hmem, hc]
theorem map_len_distinct [DecidableEq K] (m : RMap K V) :
    m.len = (m.entries.toList.map Prod.fst).toFinset.card := by
  unfold RMap.len RMap.keys RMap.toList
  rw [hsFold_card]
  congr 1
  ext x
  rw [List.mem_toFinset, List.mem_toFinset, mem_fst_dedupPairs]
  simp

theorem map_len_eq_toList_length [DecidableEq K] (m : RMap K V) :
    m.len = m.toList.length := by
  unfold RMap.len RMap.keys
  rw [hsFold_card, List.toFinset_card_of_nodup, List.length_map]
  exact dedupPairs_keys_nodup _ _

theorem hammer_len_union [DecidableEq K] (m : RHammerMap K V) :
    m.len = ((m.chain.entries.toList.map Prod.fst).toFinset ∪
      (m.head.map Prod.fst).toFinset).card := by
  unfold RHammerMap.len RHammerMap.keys RHammerMap.toList
  rw [hsFold_card]
  congr 1
  ext x
  rw [List.mem_toFinset, mem_fst_dedupPairs, Finset.mem_union,
    List.mem_toFinset, List.mem_toFinset, List.map_append, List.mem_append]
  constructor
  · rintro ⟨-, hin | hin⟩
    · exact Or.inl (((mem_fst_dedupPairs m.chain.entries.toList [] x).mp hin).2)
    · exact Or.inr hin
  · rintro (hin | hin)
    · exact ⟨by simp, Or.inl ((mem_fst_dedupPairs m.chain.entries.toList [] x).mpr
        ⟨by simp, hin⟩)⟩
    · exact ⟨by simp, Or.inr hin⟩

theorem hammer_len_eq_toList_length [DecidableEq K] (m : RHammerMap K V) :
    m.len = m.toList.length := by
  unfold RHammerMap.len RHammerMap.keys
  rw [hsFold_card, List.toFinset_card_of_nodup, List.length_map]
  exact dedupPairs_keys_nodup _ _

theorem push_front_many_spec (l : RList α) (vs : List α) :
    (l.push_front_many vs).cons = vs.reverse ++ l.cons ∧
    (l.push_front_many vs).size = l.size + vs.length := by
  induction vs generalizing l with
  | nil => simp [RList.push_front_many]
  | cons v rest ih =>
    have h1 : l.push_front_many (v :: rest) = (l.push_front v).push_front_many rest := by
      unfold RList.push_front_many
      rw [List.foldl_cons]
    obtain ⟨hc, hs⟩ := ih (l.push_front v)
    rw [h1]
    constructor
    · rw [hc]
      simp [RList.push_front, List.reverse_cons, List.append_assoc]
    · rw [hs]
      simp [RList.push_front]
      omega

theorem toFinset_replicate_pos [DecidableEq K] (n : Nat) (k : K) (h : 1 ≤ n) :
    (List.replicate n k).toFinset = {k} := by
  induction n with
  | zero => omega
  | succ n ih =>
    rw [List.replicate_succ, List.toFinset_cons]
    rcases Nat.eq_zero_or_pos n with rfl | hp
    · simp
    · rw [ih hp]
      simp

theorem hmGet_eq_find? [DecidableEq K] (xs : List (K × V)) (k : K) :
    hmGet xs k = Option.map Prod.snd (xs.find? (fun p => decide (p.1 = k))) := by
  induction xs with
  | nil => rfl
  | cons p rest ih =>
    rw [hmGet_cons]
    by_cases h : p.1 = k
    · rw [if_pos h, List.find?_cons_of_pos _ (by simpa using h)]
      rfl
    · rw [if_neg h, List.find?_cons_of_neg _ (by simpa using h), ih]

theorem fmtEntries_eq_sepByComma (f : K × V → String) (ps : List (K × V))
    (n i : Nat) (h : n = i + ps.length) :
    fmtEntries f n i ps = sepByComma (ps.map f) := by
  induction ps generalizing i with
  | nil => rfl
  | cons p rest ih =>
    cases rest with
    | nil =>
      simp only [List.length_cons, List.length_nil] at h
      have hlt : ¬(i < n - 1) := by omega
      have h1 : fmtEntries f n i [p] =
          f p ++ (if i < n - 1 then ", " else "") ++ fmtEntries f n (i + 1) [] := rfl
      rw [h1, if_neg hlt]
      show f p ++ "" ++ "" = sepByComma [f p]
      rw [show sepByComma [f p] = f p from rfl, String.append_empty,
        String.append_empty]
    | cons q rest2 =>
      simp only [List.length_cons] at h
      have hlt : i < n - 1 := by omega
      have h1 : fmtEntries f n i (p :: q :: rest2) =
          f p ++ (if i < n - 1 then ", " else "") ++ fmtEntries f n (i + 1) (q :: rest2) := rfl
      rw [h1, if_pos hlt, ih (i + 1) (by simp only [List.length_cons]; omega)]
      simp only [List.map_cons]
      rw [show sepByComma (f p :: f q :: rest2.map f) =
          f p ++ ", " ++ sepByComma (f q :: rest2.map f) from rfl]
theorem flail_len_eq_toList_length [DecidableEq K] (m : RFlailMap K V) :
    m.len = m.toList.length := by
  unfold RFlailMap.len RFlailMap.keys
  rw [hsFold_card, List.toFinset_card_of_nodup, List.length_map]
  exact dedupPairs_keys_nodup _ _

/-- C1: the claim states map equality is extensional and symmetric, and that
a map whose live pairs strictly include another's compares unequal in both
argument orders. The implemented `PartialEq` only checks that every pair of
the right operand occurs in the left operand, so with a = \x7b1: 1, 2: 2\x7d
and b = \x7b1: 1\x7d (a's live pairs a strict superset of b's) the code
returns true for a == b and false for b == a, violating the claim. -/
theorem c1_map_eq_superset_evaluation :
    RMap.beq ((RMap.new.insert (1 : Int) (1 : Int)).insert 2 2)
      (RMap.new.insert (1 : Int) (1 : Int)) = true
    ∧ RMap.beq (RMap.new.insert (1 : Int) (1 : Int))
      ((RMap.new.insert (1 : Int) (1 : Int)).insert 2 2) = false
    ∧ ((2 : Int), (2 : Int)) ∈ ((RMap.new.insert (1 : Int) (1 : Int)).insert 2 2).toList
    ∧ ((2 : Int), (2 : Int)) ∉ (RMap.new.insert (1 : Int) (1 : Int)).toList
    ∧ ((1 : Int), (1 : Int)) ∈ ((RMap.new.insert (1 : Int) (1 : Int)).insert 2 2).toList
    ∧ ((1 : Int), (1 : Int)) ∈ (RMap.new.insert (1 : Int) (1 : Int)).toList := by
  decide

/-- C2: the claim states the three layered-map variants are behaviorally
equivalent, in particular that each variant's iteration yields the
head-table entries not shadowed by the overlay. Evaluating the embedded
code on a head-only base table \x7b1: 2\x7d: ChainMap's iteration yields
nothing and its len/contains_key ignore the head (its written iterator
has no head branch and reads an undeclared field), while HammerMap and
FlailMap yield the head entry. -/
theorem c2_chain_map_head_divergence :
    (RChainMap.new [((1 : Int), (2 : Int))]).toList = []
    ∧ (RHammerMap.new [((1 : Int), (2 : Int))]).toList = [(1, 2)]
    ∧ (RFlailMap.new [((1 : Int), (2 : Int))]).toList = [(1, 2)]
    ∧ (RChainMap.new [((1 : Int), (2 : Int))]).len = 0
    ∧ (RHammerMap.new [((1 : Int), (2 : Int))]).len = 1
    ∧ (RFlailMap.new [((1 : Int), (2 : Int))]).len = 1
    ∧ (RChainMap.new [((1 : Int), (2 : Int))]).contains_key 1 = false
    ∧ (RHammerMap.new [((1 : Int), (2 : Int))]).contains_key 1 = true := by
  decide

/-- C3 counterexample: the claim attributes the brace-delimited `key: value`
rendering to the association map `Map`, but `Map` derives `Debug` (src/map.rs
line 9); at the concrete map `Map::new().insert(1, 2)` the derived rendering
is the representational `Map(List \x7b .. \x7d)` string, not `\x7b1: 2\x7d`. -/
theorem c3_map_debug_derived_counterexample :
    mapDebug (fun n : Int => toString n) (fun n : Int => toString n)
        (RMap.new.insert (1 : Int) (2 : Int))
      = "Map(List \x7b cons: Some(Cons \x7b head: (1, 2), tail: None \x7d), size: 1 \x7d)"
    ∧ mapDebug (fun n : Int => toString n) (fun n : Int => toString n)
        (RMap.new.insert (1 : Int) (2 : Int)) ≠ "\x7b1: 2\x7d" := by
  refine ⟨rfl, ?_⟩
  decide

/-- C3 (amended): the layered maps HammerMap and FlailMap render debug
output as exactly the deduplicated pairs of their iteration, in iteration
order, as a brace-delimited, comma-separated `key: value` listing; the
association map `Map` itself uses the derived representational `Debug`
instead. -/
theorem c3_layered_debug_renders_iteration [DecidableEq K] (fk : K → String)
    (fv : V → String) (hm : RHammerMap K V) (fm : RFlailMap K V) :
    hm.debug fk fv =
      "\x7b" ++ sepByComma (hm.toList.map (fun p => fk p.1 ++ ": " ++ fv p.2)) ++ "\x7d"
    ∧ fm.debug fk fv =
      "\x7b" ++ sepByComma (fm.toList.map (fun p => fk p.1 ++ ": " ++ fv p.2)) ++ "\x7d" := by
  constructor
  · unfold RHammerMap.debug
    rw [fmtEntries_eq_sepByComma _ _ _ 0 (by rw [hammer_len_eq_toList_length]; omega)]
  · unfold RFlailMap.debug
    rw [fmtEntries_eq_sepByComma _ _ _ 0 (by rw [flail_len_eq_toList_length]; omega)]

/-- C4: layered-map get returns the overlay's effective value when the key
has an overlay entry, otherwise the head table's value, otherwise none;
in particular inserting (k, v2) over a head containing (k, v1) makes get
return v2, while without the insert it returns v1. -/
theorem c4_hammer_get_layering [DecidableEq K] (m1 m2 : RHammerMap K V)
    (k1 k2 : K) (v v1 v2 : V)
    (h1 : m1.chain.get k1 = some v) (h2 : m2.chain.get k2 = none) :
    m1.get k1 = some v
    ∧ m2.get k2 = hmGet m2.head k2
    ∧ (m2.get k2 = none ↔ hmGet m2.head k2 = none)
    ∧ ((RHammerMap.new [(k1, v1)]).insert k1 v2).get k1 = some v2
    ∧ (RHammerMap.new [(k1, v1)]).get k1 = some v1 := by
  refine ⟨?_, ?_, ?_, ?_, ?_⟩
  · unfold RHammerMap.get
    rw [h1]
    rfl
  · unfold RHammerMap.get
    rw [h2]
    rfl
  · unfold RHammerMap.get
    rw [h2]
    rfl
  · unfold RHammerMap.get
    have hc : ((RHammerMap.new [(k1, v1)]).insert k1 v2).chain.get k1 = some v2 := by
      rw [map_get_eq_hmGet]
      have hg := hmGet_cons (k1, v2) ([] : List (K × V)) k1
      rw [show ((RHammerMap.new [(k1, v1)]).insert k1 v2).chain.entries.toList
          = [(k1, v2)] from rfl, hg, if_pos rfl]
    rw [hc]
    rfl
  · unfold RHammerMap.get
    rw [show (RHammerMap.new [(k1, v1)]).chain.get k1 = none from rfl]
    show hmGet [(k1, v1)] k1 = some v1
    rw [hmGet_cons, if_pos rfl]

/-- C4 witness at concrete inputs. -/
theorem c4_witness :
    (RHammerMap.mk (RMap.new.insert (1 : Int) (5 : Int)) [((1 : Int), (9 : Int))]).get 1
      = some 5
    ∧ (RHammerMap.new [((3 : Int), (7 : Int))]).get 3 = hmGet [((3 : Int), (7 : Int))] 3
    ∧ ((RHammerMap.new [((3 : Int), (7 : Int))]).get 3 = none
        ↔ hmGet [((3 : Int), (7 : Int))] 3 = none)
    ∧ ((RHammerMap.new [((1 : Int), (10 : Int))]).insert 1 20).get 1 = some 20
    ∧ (RHammerMap.new [((1 : Int), (10 : Int))]).get 1 = some 10 :=
  c4_hammer_get_layering
    (RHammerMap.mk (RMap.new.insert (1 : Int) (5 : Int)) [((1 : Int), (9 : Int))])
    (RHammerMap.new [((3 : Int), (7 : Int))]) 1 3 5 10 20 (by decide) (by decide)

/-- C5: association-map get returns the value of the first (frontmost,
most recent) matching pair of the underlying list, none when no pair
matches; insert of the same key twice makes get return the second value,
and insert never removes or rewrites older pairs. -/
theorem c5_map_get_first_match [DecidableEq K] (m : RMap K V) (k : K)
    (v v1 v2 : V) :
    ((m.insert k v1).insert k v2).get k = some v2
    ∧ (m.insert k v).entries.toList = (k, v) :: m.entries.toList
    ∧ m.get k = Option.map Prod.snd (m.entries.toList.find? (fun p => decide (p.1 = k)))
    ∧ (m.get k = none ↔ ∀ p ∈ m.entries.toList, p.1 ≠ k) := by
  refine ⟨?_, rfl, ?_, ?_⟩
  · rw [map_get_eq_hmGet]
    have hg := hmGet_cons (k, v2) ((k, v1) :: m.entries.toList) k
    rw [show ((m.insert k v1).insert k v2).entries.toList
        = (k, v2) :: (k, v1) :: m.entries.toList from rfl, hg, if_pos rfl]
  · rw [map_get_eq_hmGet, hmGet_eq_find?]
  · rw [map_get_eq_hmGet, hmGet_eq_none_iff]
/-- C6: association-map iteration yields each live key exactly once with
its most-recently-inserted value, in most-recent-first order (a sublist of
the raw entries, so relative order is preserved); layered-map iteration is
the deduplicated overlay iteration followed by exactly the head entries
whose key was not already yielded, and across both layers every live key
appears exactly once with its effective value. -/
theorem c6_iteration_dedup [DecidableEq K] (m : RMap K V) (hm : RHammerMap K V)
    (k : K) (v : V) (hnodup : (hm.head.map Prod.fst).Nodup) :
    (m.toList.map Prod.fst).Nodup
    ∧ ((k, v) ∈ m.toList ↔ m.get k = some v)
    ∧ List.Sublist m.toList m.entries.toList
    ∧ (hm.toList.map Prod.fst).Nodup
    ∧ ((k, v) ∈ hm.toList ↔ hm.get k = some v)
    ∧ hm.toList = hm.chain.toList
        ++ hm.head.filter (fun p => !(hm.chain.contains_key p.1)) :=
  ⟨dedupPairs_keys_nodup _ _, map_mem_toList m k v, dedupPairs_sublist _ _,
    dedupPairs_keys_nodup _ _, hammer_mem_toList hm k v,
    hammer_toList_split hm hnodup⟩

/-- C6 witness at concrete inputs. -/
theorem c6_witness :
    ((((RMap.new.insert (1 : Int) (2 : Int)).insert 1 3).toList).map Prod.fst).Nodup
    ∧ (((1 : Int), (3 : Int)) ∈ ((RMap.new.insert (1 : Int) (2 : Int)).insert 1 3).toList
        ↔ ((RMap.new.insert (1 : Int) (2 : Int)).insert 1 3).get 1 = some 3)
    ∧ List.Sublist ((RMap.new.insert (1 : Int) (2 : Int)).insert 1 3).toList
        ((RMap.new.insert (1 : Int) (2 : Int)).insert 1 3).entries.toList
    ∧ (((RHammerMap.mk (RMap.new.insert (1 : Int) (5 : Int))
        [((1 : Int), (9 : Int)), (2, 4)]).toList).map Prod.fst).Nodup
    ∧ (((1 : Int), (3 : Int)) ∈ (RHammerMap.mk (RMap.new.insert (1 : Int) (5 : Int))
          [((1 : Int), (9 : Int)), (2, 4)]).toList
        ↔ (RHammerMap.mk (RMap.new.insert (1 : Int) (5 : Int))
          [((1 : Int), (9 : Int)), (2, 4)]).get 1 = some 3)
    ∧ (RHammerMap.mk (RMap.new.insert (1 : Int) (5 : Int))
          [((1 : Int), (9 : Int)), (2, 4)]).toList
        = (RHammerMap.mk (RMap.new.insert (1 : Int) (5 : Int))
          [((1 : Int), (9 : Int)), (2, 4)]).chain.toList
          ++ [((1 : Int), (9 : Int)), (2, 4)].filter
            (fun p => !((RHammerMap.mk (RMap.new.insert (1 : Int) (5 : Int))
              [((1 : Int), (9 : Int)), (2, 4)]).chain.contains_key p.1)) :=
  c6_iteration_dedup ((RMap.new.insert (1 : Int) (2 : Int)).insert 1 3)
    (RHammerMap.mk (RMap.new.insert (1 : Int) (5 : Int))
      [((1 : Int), (9 : Int)), (2, 4)]) 1 3 (by decide)

/-- C7: len counts distinct keys, not raw list length, for the association
map, and the cardinality of the union of overlay keys and head keys for
the layered map; inserting pairwise-distinct keys into an empty map gives
len equal to the number of pairs, and inserting one key n >= 1 times gives
len 1. -/
theorem c7_len_distinct_keys [DecidableEq K] (m : RMap K V)
    (hm : RHammerMap K V) (ps : List (K × V)) (n : Nat) (k : K) (v : V)
    (hps : (ps.map Prod.fst).Nodup) (hn : 1 ≤ n) :
    m.len = (m.entries.toList.map Prod.fst).toFinset.card
    ∧ hm.len = ((hm.chain.entries.toList.map Prod.fst).toFinset ∪
        (hm.head.map Prod.fst).toFinset).card
    ∧ (RMap.new.insert_many ps).len = ps.length
    ∧ (RMap.new.insert_many (List.replicate n (k, v))).len = 1 := by
  refine ⟨map_len_distinct m, hammer_len_union hm, ?_, ?_⟩
  · rw [map_len_distinct]
    have hc : (RMap.new.insert_many ps).entries.toList = ps.reverse ++ [] :=
      (push_front_many_spec RList.new ps).1
    rw [hc, List.append_nil, List.map_reverse, List.toFinset_reverse,
      List.toFinset_card_of_nodup hps, List.length_map]
  · rw [map_len_distinct]
    have hc : (RMap.new.insert_many (List.replicate n (k, v))).entries.toList
        = (List.replicate n (k, v)).reverse ++ [] :=
      (push_front_many_spec RList.new _).1
    rw [hc, List.append_nil, List.reverse_replicate, List.map_replicate,
      toFinset_replicate_pos n k hn, Finset.card_singleton]

/-- C7 witness at concrete inputs. -/
theorem c7_witness :
    (RMap.new.insert (1 : Int) (2 : Int)).len
      = (((RMap.new.insert (1 : Int) (2 : Int)).entries.toList.map Prod.fst).toFinset).card
    ∧ (RHammerMap.new [((1 : Int), (2 : Int))]).len
      = (((RHammerMap.new [((1 : Int), (2 : Int))]).chain.entries.toList.map
          Prod.fst).toFinset ∪
        (([((1 : Int), (2 : Int))].map Prod.fst).toFinset)).card
    ∧ (RMap.new.insert_many [((1 : Int), (2 : Int)), (3, 4)]).len
      = [((1 : Int), (2 : Int)), (3, 4)].length
    ∧ (RMap.new.insert_many (List.replicate 2 (((7 : Int)), (0 : Int)))).len = 1 :=
  c7_len_distinct_keys (RMap.new.insert (1 : Int) (2 : Int))
    (RHammerMap.new [((1 : Int), (2 : Int))]) [((1 : Int), (2 : Int)), (3, 4)]
    2 7 0 (by decide) (by decide)

/-- C8: deriving a new handle never changes an existing one: push_front
allocates one cell whose tail is exactly the old chain (so popping the new
handle returns the old handle unchanged), clone returns an identical
handle, map insert only prepends to the old entry list, and layered-map
insert and insert_many keep the same head reference while replacing only
the overlay. -/
theorem c8_structural_sharing (l : RList α) (x : α) (m : RMap K V)
    (hm : RHammerMap K V) (k : K) (v : V) (ps : List (K × V)) :
    (l.push_front x).cons = x :: l.cons
    ∧ (l.push_front x).pop_front = l
    ∧ l.clone = l
    ∧ (m.insert k v).entries.toList = (k, v) :: m.entries.toList
    ∧ (hm.insert k v).head = hm.head
    ∧ (hm.insert_many ps).head = hm.head
    ∧ (hm.insert k v).chain = hm.chain.insert k v :=
  ⟨rfl, rfl, rfl, rfl, rfl, rfl, rfl⟩

/-- C9: every modelled operation is total; pop_front on an empty list
returns the empty list, and the indexing convenience operation reaches its
panic (modelled as none) exactly when get returns none, equivalently
exactly when contains_key is false. -/
theorem c9_totality [DecidableEq K] (l : RList α) (m : RMap K V) (k : K)
    (h : l.cons = []) :
    l.pop_front = RList.new
    ∧ (m.index k = none ↔ m.get k = none)
    ∧ (m.index k).isSome = m.contains_key k := by
  refine ⟨?_, Iff.rfl, (map_contains_key_eq_isSome m k).symm⟩
  have hp : l.pop_front =
      match l.cons with
      | _ :: tail => ⟨tail, l.size - 1⟩
      | [] => RList.new := rfl
  rw [hp, h]

/-- C9 witness at concrete inputs. -/
theorem c9_witness :
    (RList.new : RList Int).pop_front = RList.new
    ∧ ((RMap.new.insert (1 : Int) (2 : Int)).index 3 = none
        ↔ (RMap.new.insert (1 : Int) (2 : Int)).get 3 = none)
    ∧ ((RMap.new.insert (1 : Int) (2 : Int)).index 3).isSome
        = (RMap.new.insert (1 : Int) (2 : Int)).contains_key 3 :=
  c9_totality RList.new (RMap.new.insert 1 2) 3 rfl

/-- C10: the cached size field equals the chain length for every list
reachable through new, push_front, push_front_many, pop_front, clone and
from_iter; under the invariant len and is_empty are accurate, and when the
chain is nonempty (the only case in which pop_front evaluates size - 1)
the size is at least 1, so the subtraction cannot underflow. -/
theorem c10_cached_size_invariant (l : RList α) (vs : List α) (v : α)
    (h : SizeInv l) (hne : l.cons ≠ []) :
    SizeInv (RList.new : RList α)
    ∧ SizeInv (l.push_front v)
    ∧ SizeInv (l.push_front_many vs)
    ∧ SizeInv l.pop_front
    ∧ SizeInv l.clone
    ∧ SizeInv (RList.from_iter vs)
    ∧ l.len = l.cons.length
    ∧ (l.is_empty = true ↔ l.cons = [])
    ∧ 1 ≤ l.size
    ∧ l.pop_front.size + 1 = l.size := by
  have hsz : l.size = l.cons.length := h
  have hpos : 1 ≤ l.size := by
    rcases hc : l.cons with _ | ⟨c, t⟩
    · exact absurd hc hne
    · rw [hsz, hc, List.length_cons]
      omega
  obtain ⟨c, t, hc⟩ : ∃ c t, l.cons = c :: t := by
    rcases hx : l.cons with _ | ⟨c, t⟩
    · exact absurd hx hne
    · exact ⟨c, t, rfl⟩
  have hpop : l.pop_front = ⟨t, l.size - 1⟩ := by
    have hp : l.pop_front =
        match l.cons with
        | _ :: tail => ⟨tail, l.size - 1⟩
        | [] => RList.new := rfl
    rw [hp, hc]
  refine ⟨rfl, ?_, ?_, ?_, h, ?_, h, ?_, hpos, ?_⟩
  · show l.size + 1 = (v :: l.cons).length
    rw [List.length_cons, hsz]
  · obtain ⟨hcons, hsize⟩ := push_front_many_spec l vs
    show (l.push_front_many vs).size = (l.push_front_many vs).cons.length
    rw [hcons, hsize, List.length_append, List.length_reverse, hsz]
    omega
  · rw [hpop]
    show l.size - 1 = t.length
    rw [hsz, hc, List.length_cons]
    omega
  · obtain ⟨hcons, hsize⟩ := push_front_many_spec (RList.new : RList α) vs
    show (RList.from_iter vs).size = (RList.from_iter vs).cons.length
    have he : RList.from_iter vs = (RList.new : RList α).push_front_many vs := rfl
    rw [he, hcons, hsize, List.length_append, List.length_reverse]
    show 0 + vs.length = vs.length + List.length []
    simp
  · show (l.size == 0) = true ↔ l.cons = []
    rw [beq_iff_eq, hsz, List.length_eq_zero]
  · rw [hpop]
    show l.size - 1 + 1 = l.size
    omega

/-- C10 witness at concrete inputs. -/
theorem c10_witness :
    SizeInv (RList.new : RList Int)
    ∧ SizeInv ((RList.new.push_front (5 : Int)).push_front 6)
    ∧ SizeInv ((RList.new.push_front (5 : Int)).push_front_many [1, 2])
    ∧ SizeInv (RList.new.push_front (5 : Int)).pop_front
    ∧ SizeInv (RList.new.push_front (5 : Int)).clone
    ∧ SizeInv (RList.from_iter [(1 : Int), 2])
    ∧ (RList.new.push_front (5 : Int)).len = (RList.new.push_front (5 : Int)).cons.length
    ∧ ((RList.new.push_front (5 : Int)).is_empty = true
        ↔ (RList.new.push_front (5 : Int)).cons = [])
    ∧ 1 ≤ (RList.new.push_front (5 : Int)).size
    ∧ (RList.new.push_front (5 : Int)).pop_front.size + 1
        = (RList.new.push_front (5 : Int)).size :=
  c10_cached_size_invariant (RList.new.push_front (5 : Int)) [1, 2] 6 rfl
    (by decide)
end Plist
